import Mathlib

/-!
Verification of `tb_pipe`: the `StratifiedGroupKfold` splitter
(`tb_pipe/validation/cross_validate.py`), the `Trainer` model adapter and the
fold-iteration driver `run` (`tb_pipe/experiment/experiment.py`).

The Python code is shallowly embedded over `List ℕ` / `List ℚ`.  Labels and
raw group identifiers are modelled as natural numbers (the code only needs
them to be comparable and hashable; `np.unique` sorts them, which `ℕ`'s order
models directly).  NumPy's float accumulators hold exact small integers here,
so they are modelled as `ℕ`.
-/

namespace TbPipe

/-- `np.unique(l)`: the sorted list of distinct values of `l`.
Realised as a filter of `List.range` so that it is sorted by construction. -/
def uniqueSorted (l : List ℕ) : List ℕ :=
  (List.range (l.foldr max 0 + 1)).filter (fun v => l.contains v)

/-- The `return_inverse` part of `np.unique(groups, return_inverse=True)`:
each raw group id replaced by its index in the sorted list of distinct ids. -/
def denseCodes (gs : List ℕ) : List ℕ :=
  gs.map (fun g => (uniqueSorted gs).indexOf g)

/-- `np.bincount(xs)`: entry `v` counts occurrences of `v` in `xs`; the
length is `max xs + 1` (and `0` for the empty input, as in NumPy). -/
def bincount (xs : List ℕ) : List ℕ :=
  match xs with
  | [] => []
  | _ => (List.range (xs.foldr max 0 + 1)).map (fun v => xs.count v)

/-- `np.argmin(l)`: index of the first occurrence of the minimum. -/
def npArgmin : List ℕ → ℕ
  | [] => 0
  | [_] => 0
  | a :: b :: rest =>
    let j := npArgmin (b :: rest)
    if a ≤ (b :: rest).getD j 0 then 0 else j + 1

/-- Stable insertion step for the ascending argsort: index `i` is placed
before the first already-inserted index whose count is `≥ count i`.
Since indices are inserted in decreasing original position (`foldr`), equal
counts end up in ascending index order, i.e. the sort is stable — matching
`np.argsort`'s comparison sort on these arrays. -/
def insertAsc (c : List ℕ) (i : ℕ) : List ℕ → List ℕ
  | [] => [i]
  | j :: rest =>
    if c.getD i 0 ≤ c.getD j 0 then i :: j :: rest else j :: insertAsc c i rest

/-- `np.argsort(c)` (stable, ascending). -/
def argsortAsc (c : List ℕ) : List ℕ :=
  (List.range c.length).foldr (insertAsc c) []

/-- `np.argsort(n_samples_per_group)[::-1]`: the order in which a label's
groups are greedily placed. -/
def sortedGroupOrder (c : List ℕ) : List ℕ :=
  (argsortAsc c).reverse

/-- The mutable state of the greedy placement loop:
`n_samples_per_fold` (per-fold accumulated weight, reset per label),
`groups_in_fold` (per-label fold → group indices) and
`fold_groups` (global fold → group indices, shared across labels). -/
structure PlaceState where
  nSamplesPerFold : List ℕ
  groupsInFold : List (List ℕ)
  foldGroups : List (List ℕ)
  deriving Repr, DecidableEq

/-- The scan `for fold_index, fold_group in enumerate(fold_groups): if g in
fold_group: lightest_fold = fold_index` — the last fold containing `g`, or
the default when none does. -/
def lastFoldAux (g : ℕ) : List (List ℕ) → ℕ → ℕ → ℕ
  | [], _, cur => cur
  | fgs :: rest, i, cur => lastFoldAux g rest (i + 1) (if g ∈ fgs then i else cur)

def lastFold (fg : List (List ℕ)) (g : ℕ) (dflt : ℕ) : ℕ :=
  lastFoldAux g fg 0 dflt

/-- The fold selected for group `g`: the lightest fold (first argmin), unless
`constrain_groups` is set and `g` was already placed, in which case the
(last) fold already holding `g`. -/
def chosenFold (constrain : Bool) (st : PlaceState) (g : ℕ) : ℕ :=
  let lightest := npArgmin st.nSamplesPerFold
  if constrain then lastFold st.foldGroups g lightest else lightest

/-- One iteration of the placement loop over `enumerate(n_samples_per_group)`:
zero-weight groups are skipped; otherwise the chosen fold's accumulator grows
by the weight (`weighted`) or by 1, and `g` is appended to that fold's
per-label and global group lists. -/
def placeGroup (constrain weighted : Bool) (counts : List ℕ) (st : PlaceState)
    (g : ℕ) : PlaceState :=
  let w := counts.getD g 0
  if w = 0 then st
  else
    let lf := chosenFold constrain st g
    { nSamplesPerFold := st.nSamplesPerFold.set lf
        (st.nSamplesPerFold.getD lf 0 + (if weighted then w else 1)),
      groupsInFold := st.groupsInFold.set lf (st.groupsInFold.getD lf [] ++ [g]),
      foldGroups := st.foldGroups.set lf (st.foldGroups.getD lf [] ++ [g]) }

/-- `groups[y == label]`: the dense group codes of the samples of one label. -/
def tmpGroups (y dense : List ℕ) (label : ℕ) : List ℕ :=
  (y.zip dense).filterMap (fun p => if p.1 = label then some p.2 else none)

/-- `np.bincount(groups[y == label])`: per-group sample counts of one label. -/
def countsFor (y dense : List ℕ) (label : ℕ) : List ℕ :=
  bincount (tmpGroups y dense label)

/-- Processing of one label: fresh per-label accumulators and `groups_in_fold`,
greedy placement of the label's groups in `sortedGroupOrder` order; returns
the label's `groups_in_fold` and the updated global `fold_groups`. -/
def processLabel (k : ℕ) (constrain weighted : Bool) (y dense : List ℕ)
    (fg : List (List ℕ)) (label : ℕ) : List (List ℕ) × List (List ℕ) :=
  let counts := countsFor y dense label
  let st := (sortedGroupOrder counts).foldl (placeGroup constrain weighted counts)
    ⟨List.replicate k 0, List.replicate k [], fg⟩
  (st.groupsInFold, st.foldGroups)

/-- The loop over `unique_y` building `label_to_fold`, threading the global
`fold_groups`; returns the `(label, groups_in_fold)` list and the final
`fold_groups`. -/
def buildLabelToFold (k : ℕ) (constrain weighted : Bool) (y dense : List ℕ) :
    List (List ℕ) → List ℕ → List (ℕ × List (List ℕ)) × List (List ℕ)
  | fg, [] => ([], fg)
  | fg, l :: ls =>
    let p := processLabel k constrain weighted y dense fg l
    let r := buildLabelToFold k constrain weighted y dense p.2 ls
    ((l, p.1) :: r.1, r.2)

/-- The final yield stage of `_iter_test_indices`: fold `f`'s test indices are
the concatenation, per label in `label_to_fold` order, of the ascending sample
indices whose label matches and whose dense group code was assigned to fold
`f` for that label (`intersect1d` of the two `argwhere` results). -/
def iterTestIndicesFolds (k : ℕ) (constrain weighted : Bool) (y gs : List ℕ) :
    List (List ℕ) :=
  let dense := denseCodes gs
  let ltf := (buildLabelToFold k constrain weighted y dense
    (List.replicate k []) (uniqueSorted y)).1
  (List.range k).map (fun f =>
    (ltf.map (fun p =>
      (List.range y.length).filter (fun i =>
        y.getD i 0 == p.1 && (p.2.getD f []).contains (dense.getD i 0)))).flatten)

/-- `StratifiedGroupKfold._iter_test_indices` with its two error exits:
`groups is None` and `n_splits > n_groups` raise before any fold is yielded. -/
def iterTestIndices (k : ℕ) (constrain weighted : Bool) (y : List ℕ)
    (groups : Option (List ℕ)) : Except String (List (List ℕ)) :=
  match groups with
  | none => .error "The groups parameter should not be None."
  | some gs =>
    if k > (uniqueSorted gs).length then
      .error "Cannot have number of splits n_splits greater than the number of groups."
    else
      .ok (iterTestIndicesFolds k constrain weighted y gs)

/-- `split`: each yielded pair is (train indices, test indices), the train
side being the ascending complement of the test side (from `_BaseKFold`). -/
def splitFolds (k : ℕ) (constrain weighted : Bool) (y : List ℕ)
    (groups : Option (List ℕ)) : Except String (List (List ℕ × List ℕ)) :=
  (iterTestIndices k constrain weighted y groups).map (fun folds =>
    folds.map (fun t => ((List.range y.length).filter (fun i => !(t.contains i)), t)))

/-- `f` is the index `np.argmin` describes: in range, attaining the minimum,
and strictly below every earlier entry (first occurrence of the minimum). -/
def IsFirstMinIdx (l : List ℕ) (f : ℕ) : Prop :=
  f < l.length ∧ (∀ j, j < l.length → l.getD f 0 ≤ l.getD j 0) ∧
    ∀ j, j < f → l.getD f 0 < l.getD j 0

/-- All three components of the placement state have the expected length `k`. -/
def GoodState (k : ℕ) (st : PlaceState) : Prop :=
  st.nSamplesPerFold.length = k ∧ st.groupsInFold.length = k ∧ st.foldGroups.length = k

/-- Every group index sits in at most one fold of `fold_groups`. -/
def AtMostOne (fg : List (List ℕ)) : Prop :=
  ∀ x f1 f2, x ∈ fg.getD f1 [] → x ∈ fg.getD f2 [] → f1 = f2

/-- The strict order realised by the code's group processing order within one
label: ascending count, ties by ascending dense group index. -/
def ltLex (c : List ℕ) (i j : ℕ) : Prop :=
  c.getD i 0 < c.getD j 0 ∨ (c.getD i 0 = c.getD j 0 ∧ i < j)

/-- Insertion step of the ordering the spec claims (stable descending):
index `i` goes after every strictly larger count and before equal counts,
so ties end up in ascending index order. -/
def insertDesc (c : List ℕ) (i : ℕ) : List ℕ → List ℕ
  | [] => [i]
  | j :: rest =>
    if c.getD i 0 < c.getD j 0 then j :: insertDesc c i rest else i :: j :: rest

/-- The ordering claimed by the spec for a label's groups: a stable sort on
count descending only, i.e. ties broken by ascending dense group index. -/
def specStableDescOrder (c : List ℕ) : List ℕ :=
  (List.range c.length).foldr (insertDesc c) []

/-- `Trainer` (`cross_validate.py`): the wrapped model is reduced to the data
the adapter inspects — its class name, the two runtime flags, and the
underlying `predict_proba` behaviour of each branch (CatBoost called plainly,
LightGBM called at the best iteration). -/
structure TrainerModel where
  name : String
  is_catboost : Bool
  is_classifier : Bool
  probaFull : List ℚ → List (List ℚ)
  probaAtBest : List ℚ → List (List ℚ)

/-- `Trainer.predict_proba`: classifiers dispatch to the underlying model;
non-classifiers raise (`NotImplementedError` in the code, the spec's
`NotSupportedError`) without touching the underlying model. -/
def predictProba (t : TrainerModel) (x : List ℚ) : Except String (List (List ℚ)) :=
  if t.is_classifier then
    if t.is_catboost then .ok (t.probaFull x) else .ok (t.probaAtBest x)
  else
    .error (t.name ++ " is not supported predict_proba method.")

/-- Result of `experiment.run`: out-of-fold predictions, the averaged
held-out-test prediction (when a test set was given), per-fold feature
importances, and an instrumentation counter of how many times
`trainer.predict(test)` was evaluated. -/
structure RunResult (α : Type) where
  oof : List ℚ
  prediction : Option (List ℚ)
  featureImportances : List (List ℚ)
  testPredictCalls : ℕ

/-- The rows/targets a fold trains on, and the pointwise model it yields:
`trainer.train(train.iloc[trn_idx], target.iloc[trn_idx])` followed by
per-row prediction. -/
def fittedModel {α : Type} [Inhabited α] (fit : List (α × ℚ) → α → ℚ)
    (train : List α) (target : List ℚ) (trnIdx : List ℕ) : α → ℚ :=
  fit (trnIdx.map (fun i => (train.getD i default, target.getD i 0)))

/-- One iteration of the fold loop in `experiment.run`: train on the fold's
train rows, scatter predictions on the validation rows into `oof`, add the
test-set predictions into the accumulator when a test set exists, and append
the fold's feature importances. -/
def runFoldStep {α : Type} [Inhabited α] (fit : List (α × ℚ) → α → ℚ)
    (fimp : List (α × ℚ) → List ℚ) (train : List α) (target : List ℚ)
    (test : Option (List α)) (st : RunResult α) (fold : List ℕ × List ℕ) :
    RunResult α :=
  let rows := fold.1.map (fun i => (train.getD i default, target.getD i 0))
  let m := fit rows
  let oof := fold.2.foldl (fun o i => o.set i (m (train.getD i default))) st.oof
  let prediction := match test, st.prediction with
    | some t, some p => some (List.zipWith (· + ·) p (t.map m))
    | _, _ => st.prediction
  let calls := st.testPredictCalls + (match test with | some _ => 1 | none => 0)
  ⟨oof, prediction, st.featureImportances ++ [fimp rows], calls⟩

/-- `experiment.run`: `oof` starts as zeros over the train rows, the test
accumulator as zeros over the test rows (only when a test set was supplied);
after the fold loop the accumulated test predictions are divided by the
number of folds (`cv.get_n_splits`), and stay `None` when no test set. -/
def runExperiment {α : Type} [Inhabited α] (fit : List (α × ℚ) → α → ℚ)
    (fimp : List (α × ℚ) → List ℚ) (train : List α) (target : List ℚ)
    (test : Option (List α)) (folds : List (List ℕ × List ℕ)) : RunResult α :=
  let init : RunResult α :=
    ⟨List.replicate train.length 0, test.map (fun t => List.replicate t.length 0), [], 0⟩
  let res := folds.foldl (runFoldStep fit fimp train target test) init
  { res with prediction := res.prediction.map (fun p => p.map (· / (folds.length : ℚ))) }

/-! ### List toolbox -/

theorem getD_set_self {α : Type} (l : List α) (i : ℕ) (x d : α) (h : i < l.length) :
    (l.set i x).getD i d = x := by
  simp [List.getD, h]

theorem getD_set_ne {α : Type} (l : List α) {i j : ℕ} (x d : α) (h : i ≠ j) :
    (l.set i x).getD j d = l.getD j d := by
  simp [List.getD, List.getElem?_set_ne h]

theorem getD_map_range {α : Type} (n i : ℕ) (f : ℕ → α) (d : α) (h : i < n) :
    ((List.range n).map f).getD i d = f i := by
  rw [List.getD_eq_getElem] <;> simp [h]

theorem getD_replicate_nil (k f : ℕ) :
    (List.replicate k ([] : List ℕ)).getD f [] = [] := by
  rcases lt_or_le f k with h | h
  · rw [List.getD_eq_getElem _ _ (by simpa using h)]
    simp
  · exact List.getD_eq_default _ _ (by simpa using h)

theorem le_foldr_max (a b : ℕ) (l : List ℕ) (h : a ∈ l) : a ≤ l.foldr max b := by
  induction l with
  | nil => simp at h
  | cons c t ih =>
    rcases List.mem_cons.mp h with rfl | h
    · simp [le_max_iff]
    · simp [le_max_iff, ih h]

theorem mem_uniqueSorted (l : List ℕ) (x : ℕ) : x ∈ uniqueSorted l ↔ x ∈ l := by
  unfold uniqueSorted
  simp only [List.mem_filter, List.mem_range, List.contains_iff_exists_mem_beq]
  constructor
  · rintro ⟨-, a, ha, hb⟩
    rcases (beq_iff_eq (a := x) (b := a)).mp hb with rfl
    exact ha
  · intro hx
    exact ⟨Nat.lt_succ_of_le (le_foldr_max _ _ _ hx), x, hx, by simp⟩

theorem uniqueSorted_nodup (l : List ℕ) : (uniqueSorted l).Nodup :=
  (List.nodup_range _).filter _

theorem getD_lt_length {α : Type} (l : List α) (i : ℕ) (d : α) (h : l.getD i d ≠ d) :
    i < l.length := by
  by_contra hge
  exact h (List.getD_eq_default _ _ (le_of_not_lt hge))

/-! ### `np.argmin` -/

theorem npArgmin_spec : ∀ l : List ℕ, l ≠ [] → IsFirstMinIdx l (npArgmin l)
  | [], h => absurd rfl h
  | [a], _ => by
    refine ⟨by simp [npArgmin], ?_, ?_⟩
    · intro j hj
      simp only [List.length_singleton] at hj
      match j, hj with
      | 0, _ => simp [npArgmin]
    · intro j hj
      simp [npArgmin] at hj
  | a :: b :: rest, _ => by
    obtain ⟨ih1, ih2, ih3⟩ := npArgmin_spec (b :: rest) (by simp)
    show IsFirstMinIdx (a :: b :: rest) (npArgmin (a :: b :: rest))
    rw [npArgmin]
    split
    next hle =>
      refine ⟨by simp, ?_, ?_⟩
      · intro j hj
        match j with
        | 0 => simp
        | j + 1 =>
          simp only [List.getD_cons_zero, List.getD_cons_succ]
          exact le_trans hle (ih2 j (by simpa using hj))
      · intro j hj
        omega
    next hgt =>
      push_neg at hgt
      refine ⟨by simpa using ih1, ?_, ?_⟩
      · intro j hj
        match j with
        | 0 => simpa using le_of_lt hgt
        | j + 1 =>
          simp only [List.getD_cons_succ]
          exact ih2 j (by simpa using hj)
      · intro j hj
        match j with
        | 0 => simpa using hgt
        | j + 1 =>
          simp only [List.getD_cons_succ]
          exact ih3 j (by omega)

theorem npArgmin_lt (l : List ℕ) (h : l ≠ []) : npArgmin l < l.length :=
  (npArgmin_spec l h).1

/-! ### The `fold_groups` scan (`lastFold`) -/

theorem lastFoldAux_lt (g : ℕ) : ∀ (fgs : List (List ℕ)) (i cur k : ℕ),
    cur < k → i + fgs.length ≤ k → lastFoldAux g fgs i cur < k
  | [], _, _, _, hcur, _ => hcur
  | fg0 :: rest, i, cur, k, hcur, hlen => by
    rw [lastFoldAux]
    apply lastFoldAux_lt g rest (i + 1) _ k
    · split
      · simp at hlen; omega
      · exact hcur
    · simp at hlen ⊢; omega

theorem lastFoldAux_of_none (g : ℕ) : ∀ (fgs : List (List ℕ)) (i cur : ℕ),
    (∀ q, q < fgs.length → g ∉ fgs.getD q []) → lastFoldAux g fgs i cur = cur
  | [], _, _, _ => rfl
  | fg0 :: rest, i, cur, h => by
    rw [lastFoldAux]
    have h0 : g ∉ fg0 := by simpa using h 0 (by simp)
    rw [if_neg h0]
    exact lastFoldAux_of_none g rest (i + 1) cur (fun q hq => by
      simpa using h (q + 1) (by simpa using hq))

theorem lastFoldAux_of_unique (g : ℕ) : ∀ (fgs : List (List ℕ)) (i cur p : ℕ),
    p < fgs.length → g ∈ fgs.getD p [] →
    (∀ q, q < fgs.length → g ∈ fgs.getD q [] → q = p) →
    lastFoldAux g fgs i cur = i + p
  | [], _, _, p, hp, _, _ => by simp at hp
  | fg0 :: rest, i, cur, p, hp, hmem, huniq => by
    rw [lastFoldAux]
    match p with
    | 0 =>
      have h0 : g ∈ fg0 := by simpa using hmem
      rw [if_pos h0]
      have : ∀ q, q < rest.length → g ∉ rest.getD q [] := by
        intro q hq hgq
        have := huniq (q + 1) (by simpa using hq) (by simpa using hgq)
        omega
      rw [lastFoldAux_of_none g rest (i + 1) i this]
      omega
    | p + 1 =>
      have h0 : g ∉ fg0 := by
        intro h0
        have := huniq 0 (by simp) (by simpa using h0)
        omega
      rw [if_neg h0]
      rw [lastFoldAux_of_unique g rest (i + 1) cur p (by simpa using hp)
        (by simpa using hmem)
        (fun q hq hgq => by
          have := huniq (q + 1) (by simpa using hq) (by simpa using hgq)
          omega)]
      omega

theorem chosenFold_lt (c : Bool) (st : PlaceState) (g k : ℕ) (hk : 0 < k)
    (h1 : st.nSamplesPerFold.length = k) (h3 : st.foldGroups.length = k) :
    chosenFold c st g < k := by
  have hargmin : npArgmin st.nSamplesPerFold < k := by
    rw [← h1]
    exact npArgmin_lt _ (by rw [← List.length_pos, h1]; exact hk)
  unfold chosenFold lastFold
  split
  · exact lastFoldAux_lt g st.foldGroups 0 _ k hargmin (by omega)
  · exact hargmin

/-! ### `placeGroup` -/

theorem placeGroup_zero (c w : Bool) (counts : List ℕ) (st : PlaceState) (g : ℕ)
    (h : counts.getD g 0 = 0) : placeGroup c w counts st g = st := by
  have h' : counts[g]?.getD 0 = 0 := by rw [← List.getD_eq_getElem?_getD]; exact h
  simp [placeGroup, h']

theorem placeGroup_eq (c w : Bool) (counts : List ℕ) (st : PlaceState) (g : ℕ)
    (h : counts.getD g 0 ≠ 0) :
    placeGroup c w counts st g =
      ⟨st.nSamplesPerFold.set (chosenFold c st g)
          (st.nSamplesPerFold.getD (chosenFold c st g) 0 +
            (if w then counts.getD g 0 else 1)),
        st.groupsInFold.set (chosenFold c st g)
          (st.groupsInFold.getD (chosenFold c st g) [] ++ [g]),
        st.foldGroups.set (chosenFold c st g)
          (st.foldGroups.getD (chosenFold c st g) [] ++ [g])⟩ := by
  have h' : ¬counts[g]?.getD 0 = 0 := by rw [← List.getD_eq_getElem?_getD]; exact h
  simp [placeGroup, h']

theorem placeGroup_good (c w : Bool) (counts : List ℕ) (st : PlaceState) (g k : ℕ)
    (h : GoodState k st) : GoodState k (placeGroup c w counts st g) := by
  by_cases h0 : counts.getD g 0 = 0
  · rwa [placeGroup_zero c w counts st g h0]
  · rw [placeGroup_eq c w counts st g h0]
    obtain ⟨h1, h2, h3⟩ := h
    exact ⟨by simpa using h1, by simpa using h2, by simpa using h3⟩

theorem mem_setAppend_iff (l : List (List ℕ)) (lf : ℕ) (hlf : lf < l.length)
    (g x f : ℕ) :
    (x ∈ (l.set lf (l.getD lf [] ++ [g])).getD f [] ↔
      x ∈ l.getD f [] ∨ (x = g ∧ f = lf)) := by
  by_cases hf : f = lf
  · subst hf
    rw [getD_set_self _ _ _ _ hlf]
    constructor
    · intro hx
      rcases List.mem_append.mp hx with hx | hx
      · exact Or.inl hx
      · exact Or.inr ⟨by simpa using hx, rfl⟩
    · rintro (hx | ⟨rfl, -⟩)
      · exact List.mem_append.mpr (Or.inl hx)
      · exact List.mem_append.mpr (Or.inr (by simp))
  · rw [getD_set_ne _ _ _ (fun h => hf h.symm)]
    simp [hf]

theorem mem_gif_placeGroup (c w : Bool) (counts : List ℕ) (st : PlaceState)
    (g k : ℕ) (hk : 0 < k) (h : GoodState k st) (x f : ℕ) :
    (x ∈ (placeGroup c w counts st g).groupsInFold.getD f [] ↔
      x ∈ st.groupsInFold.getD f [] ∨
        (counts.getD g 0 ≠ 0 ∧ x = g ∧ f = chosenFold c st g)) := by
  by_cases h0 : counts.getD g 0 = 0
  · rw [placeGroup_zero c w counts st g h0]
    constructor
    · exact Or.inl
    · rintro (hx | ⟨hc, -, -⟩)
      · exact hx
      · exact absurd h0 hc
  · rw [placeGroup_eq c w counts st g h0]
    have hlf : chosenFold c st g < st.groupsInFold.length := by
      rw [h.2.1]; exact chosenFold_lt c st g k hk h.1 h.2.2
    rw [mem_setAppend_iff _ _ hlf]
    constructor
    · rintro (hx | ⟨rfl, rfl⟩)
      · exact Or.inl hx
      · exact Or.inr ⟨h0, rfl, rfl⟩
    · rintro (hx | ⟨-, rfl, rfl⟩)
      · exact Or.inl hx
      · exact Or.inr ⟨rfl, rfl⟩

theorem mem_fg_placeGroup (c w : Bool) (counts : List ℕ) (st : PlaceState)
    (g k : ℕ) (hk : 0 < k) (h : GoodState k st) (x f : ℕ) :
    (x ∈ (placeGroup c w counts st g).foldGroups.getD f [] ↔
      x ∈ st.foldGroups.getD f [] ∨
        (counts.getD g 0 ≠ 0 ∧ x = g ∧ f = chosenFold c st g)) := by
  by_cases h0 : counts.getD g 0 = 0
  · rw [placeGroup_zero c w counts st g h0]
    constructor
    · exact Or.inl
    · rintro (hx | ⟨hc, -, -⟩)
      · exact hx
      · exact absurd h0 hc
  · rw [placeGroup_eq c w counts st g h0]
    have hlf : chosenFold c st g < st.foldGroups.length := by
      rw [h.2.2]; exact chosenFold_lt c st g k hk h.1 h.2.2
    rw [mem_setAppend_iff _ _ hlf]
    constructor
    · rintro (hx | ⟨rfl, rfl⟩)
      · exact Or.inl hx
      · exact Or.inr ⟨h0, rfl, rfl⟩
    · rintro (hx | ⟨-, rfl, rfl⟩)
      · exact Or.inl hx
      · exact Or.inr ⟨rfl, rfl⟩

/-! ### The placement loop (`foldl placeGroup`) -/

theorem foldl_place_good (c w : Bool) (counts : List ℕ) (k : ℕ) :
    ∀ (os : List ℕ) (st : PlaceState), GoodState k st →
      GoodState k (os.foldl (placeGroup c w counts) st)
  | [], _, h => h
  | o :: rest, st, h =>
    foldl_place_good c w counts k rest _ (placeGroup_good c w counts st o k h)

theorem foldl_place_gif_of_not_mem (c w : Bool) (counts : List ℕ) (k : ℕ)
    (hk : 0 < k) (x f : ℕ) :
    ∀ (os : List ℕ) (st : PlaceState), GoodState k st → x ∉ os →
      (x ∈ (os.foldl (placeGroup c w counts) st).groupsInFold.getD f [] ↔
        x ∈ st.groupsInFold.getD f [])
  | [], _, _, _ => Iff.rfl
  | o :: rest, st, h, hx => by
    have hxo : x ≠ o := fun he => hx (he ▸ List.mem_cons_self o rest)
    have hxr : x ∉ rest := fun hr => hx (List.mem_cons_of_mem o hr)
    rw [List.foldl_cons,
      foldl_place_gif_of_not_mem c w counts k hk x f rest _
        (placeGroup_good c w counts st o k h) hxr,
      mem_gif_placeGroup c w counts st o k hk h x f]
    simp [hxo]

theorem foldl_place_gif_new (c w : Bool) (counts : List ℕ) (k : ℕ)
    (hk : 0 < k) (x f : ℕ) :
    ∀ (os : List ℕ) (st : PlaceState), GoodState k st →
      x ∈ (os.foldl (placeGroup c w counts) st).groupsInFold.getD f [] →
      x ∈ st.groupsInFold.getD f [] ∨ (x ∈ os ∧ counts.getD x 0 ≠ 0)
  | [], _, _, hmem => Or.inl hmem
  | o :: rest, st, h, hmem => by
    rcases foldl_place_gif_new c w counts k hk x f rest _
      (placeGroup_good c w counts st o k h) hmem with hst | ⟨hro, hc⟩
    · rw [mem_gif_placeGroup c w counts st o k hk h x f] at hst
      rcases hst with hst | ⟨hc, rfl, -⟩
      · exact Or.inl hst
      · exact Or.inr ⟨List.mem_cons_self _ _, hc⟩
    · exact Or.inr ⟨List.mem_cons_of_mem o hro, hc⟩

theorem foldl_place_gif_exu (c w : Bool) (counts : List ℕ) (k : ℕ)
    (hk : 0 < k) (x : ℕ) (hc : counts.getD x 0 ≠ 0) :
    ∀ (os : List ℕ) (st : PlaceState), GoodState k st → os.Nodup → x ∈ os →
      (∀ f, x ∉ st.groupsInFold.getD f []) →
      ∃! f, f < k ∧ x ∈ (os.foldl (placeGroup c w counts) st).groupsInFold.getD f []
  | [], _, _, _, hx, _ => absurd hx (List.not_mem_nil x)
  | o :: rest, st, h, hnd, hx, hempty => by
    have h' : GoodState k (placeGroup c w counts st o) :=
      placeGroup_good c w counts st o k h
    by_cases hxo : x = o
    · subst hxo
      have hxrest : x ∉ rest := (List.nodup_cons.mp hnd).1
      have hmem : ∀ f,
          (x ∈ (List.foldl (placeGroup c w counts) (placeGroup c w counts st x)
              rest).groupsInFold.getD f [] ↔ f = chosenFold c st x) := by
        intro f
        rw [foldl_place_gif_of_not_mem c w counts k hk x f rest _ h' hxrest,
          mem_gif_placeGroup c w counts st x k hk h x f]
        constructor
        · rintro (hm | ⟨-, -, rfl⟩)
          · exact absurd hm (hempty f)
          · rfl
        · rintro rfl
          exact Or.inr ⟨hc, rfl, rfl⟩
      rw [List.foldl_cons]
      refine ⟨chosenFold c st x,
        ⟨chosenFold_lt c st x k hk h.1 h.2.2, (hmem _).mpr rfl⟩, ?_⟩
      intro f hf
      exact (hmem f).mp hf.2
    · have hxr : x ∈ rest := by
        rcases List.mem_cons.mp hx with he | hr
        · exact absurd he hxo
        · exact hr
      rw [List.foldl_cons]
      refine foldl_place_gif_exu c w counts k hk x hc rest _ h'
        (List.nodup_cons.mp hnd).2 hxr ?_
      intro f
      rw [mem_gif_placeGroup c w counts st o k hk h x f]
      rintro (hm | ⟨-, he, -⟩)
      · exact hempty f hm
      · exact hxo he

theorem foldl_place_fg_mono (c w : Bool) (counts : List ℕ) (k : ℕ)
    (hk : 0 < k) (x f : ℕ) :
    ∀ (os : List ℕ) (st : PlaceState), GoodState k st →
      x ∈ st.foldGroups.getD f [] →
      x ∈ (os.foldl (placeGroup c w counts) st).foldGroups.getD f []
  | [], _, _, hmem => hmem
  | o :: rest, st, h, hmem => by
    rw [List.foldl_cons]
    exact foldl_place_fg_mono c w counts k hk x f rest _
      (placeGroup_good c w counts st o k h)
      ((mem_fg_placeGroup c w counts st o k hk h x f).mpr (Or.inl hmem))

theorem foldl_place_gif_sub_fg (c w : Bool) (counts : List ℕ) (k : ℕ)
    (hk : 0 < k) :
    ∀ (os : List ℕ) (st : PlaceState), GoodState k st →
      (∀ x f, x ∈ st.groupsInFold.getD f [] → x ∈ st.foldGroups.getD f []) →
      ∀ x f, x ∈ (os.foldl (placeGroup c w counts) st).groupsInFold.getD f [] →
        x ∈ (os.foldl (placeGroup c w counts) st).foldGroups.getD f []
  | [], _, _, hsub => hsub
  | o :: rest, st, h, hsub => by
    rw [List.foldl_cons]
    refine foldl_place_gif_sub_fg c w counts k hk rest _
      (placeGroup_good c w counts st o k h) ?_
    intro x f hx
    rw [mem_gif_placeGroup c w counts st o k hk h x f] at hx
    rw [mem_fg_placeGroup c w counts st o k hk h x f]
    exact hx.imp_left (hsub x f)

theorem placeGroup_atMostOne (w : Bool) (counts : List ℕ) (st : PlaceState)
    (g k : ℕ) (hk : 0 < k) (h : GoodState k st) (hone : AtMostOne st.foldGroups) :
    AtMostOne (placeGroup true w counts st g).foldGroups := by
  intro x f1 f2 h1 h2
  rw [mem_fg_placeGroup true w counts st g k hk h x f1] at h1
  rw [mem_fg_placeGroup true w counts st g k hk h x f2] at h2
  rcases h1 with h1 | ⟨hc, rfl, rfl⟩
  · rcases h2 with h2 | ⟨hc, rfl, rfl⟩
    · exact hone x f1 f2 h1 h2
    · -- x = g was already in fold f1; the constrained choice returns f1.
      have hf1 : f1 < st.foldGroups.length :=
        getD_lt_length _ _ _ (fun he => by rw [he] at h1; exact absurd h1 (List.not_mem_nil x))
      have : chosenFold true st x = f1 := by
        unfold chosenFold lastFold
        rw [if_pos rfl,
          lastFoldAux_of_unique x st.foldGroups 0 _ f1 hf1 h1
            (fun q _ hq => hone x q f1 hq h1)]
        omega
      omega
  · rcases h2 with h2 | ⟨-, -, rfl⟩
    · have hf2 : f2 < st.foldGroups.length :=
        getD_lt_length _ _ _ (fun he => by rw [he] at h2; exact absurd h2 (List.not_mem_nil x))
      have : chosenFold true st x = f2 := by
        unfold chosenFold lastFold
        rw [if_pos rfl,
          lastFoldAux_of_unique x st.foldGroups 0 _ f2 hf2 h2
            (fun q _ hq => hone x q f2 hq h2)]
        omega
      omega
    · rfl

theorem foldl_place_atMostOne (w : Bool) (counts : List ℕ) (k : ℕ) (hk : 0 < k) :
    ∀ (os : List ℕ) (st : PlaceState), GoodState k st →
      AtMostOne st.foldGroups →
      AtMostOne (List.foldl (placeGroup true w counts) st os).foldGroups
  | [], _, _, hone => hone
  | o :: rest, st, h, hone => by
    rw [List.foldl_cons]
    exact foldl_place_atMostOne w counts k hk rest _
      (placeGroup_good true w counts st o k h)
      (placeGroup_atMostOne w counts st o k hk h hone)

/-! ### The group processing order (`np.argsort(...)[::-1]`) -/

theorem insertAsc_perm (c : List ℕ) (i : ℕ) :
    ∀ xs : List ℕ, (insertAsc c i xs).Perm (i :: xs)
  | [] => List.Perm.refl _
  | j :: rest => by
    rw [insertAsc]
    split
    · exact List.Perm.refl _
    · exact ((insertAsc_perm c i rest).cons j).trans (List.Perm.swap i j rest)

theorem foldr_insertAsc_perm (c : List ℕ) :
    ∀ l : List ℕ, (l.foldr (insertAsc c) []).Perm l
  | [] => List.Perm.refl _
  | i :: rest => by
    rw [List.foldr_cons]
    exact (insertAsc_perm c i _).trans ((foldr_insertAsc_perm c rest).cons i)

theorem sortedGroupOrder_perm (c : List ℕ) :
    (sortedGroupOrder c).Perm (List.range c.length) :=
  (List.reverse_perm _).trans (foldr_insertAsc_perm c _)

theorem mem_sortedGroupOrder (c : List ℕ) (x : ℕ) :
    x ∈ sortedGroupOrder c ↔ x < c.length := by
  rw [(sortedGroupOrder_perm c).mem_iff, List.mem_range]

theorem sortedGroupOrder_nodup (c : List ℕ) : (sortedGroupOrder c).Nodup :=
  (sortedGroupOrder_perm c).nodup_iff.mpr (List.nodup_range _)

theorem insertAsc_pairwise (c : List ℕ) (i : ℕ) :
    ∀ xs : List ℕ, (∀ j ∈ xs, i < j) → xs.Pairwise (ltLex c) →
      (insertAsc c i xs).Pairwise (ltLex c)
  | [], _, _ => List.pairwise_singleton _ _
  | j :: rest, hgt, hp => by
    rw [insertAsc]
    obtain ⟨hj, hrest⟩ := List.pairwise_cons.mp hp
    split
    next hle =>
      refine List.Pairwise.cons ?_ hp
      intro z hz
      rcases List.mem_cons.mp hz with rfl | hzr
      · rcases lt_or_eq_of_le hle with hlt | heq
        · exact Or.inl hlt
        · exact Or.inr ⟨heq, hgt z (List.mem_cons_self _ _)⟩
      · have hjz := hj z hzr
        rcases lt_or_eq_of_le hle with hlt | heq
        · rcases hjz with h1 | ⟨h1, -⟩
          · exact Or.inl (lt_trans hlt h1)
          · exact Or.inl (h1 ▸ hlt)
        · rcases hjz with h1 | ⟨h1, -⟩
          · exact Or.inl (heq ▸ h1)
          · exact Or.inr ⟨heq.trans h1, hgt z (List.mem_cons_of_mem j hzr)⟩
    next hnle =>
      push_neg at hnle
      refine List.Pairwise.cons ?_
        (insertAsc_pairwise c i rest
          (fun z hz => hgt z (List.mem_cons_of_mem j hz)) hrest)
      intro z hz
      have hz' := (insertAsc_perm c i rest).mem_iff.mp hz
      rcases List.mem_cons.mp hz' with rfl | hzr
      · exact Or.inl hnle
      · exact hj z hzr

theorem foldr_insertAsc_pairwise (c : List ℕ) :
    ∀ l : List ℕ, l.Pairwise (· < ·) →
      (l.foldr (insertAsc c) []).Pairwise (ltLex c)
  | [], _ => List.Pairwise.nil
  | i :: rest, hp => by
    rw [List.foldr_cons]
    obtain ⟨hi, hrest⟩ := List.pairwise_cons.mp hp
    exact insertAsc_pairwise c i _
      (fun j hj => hi j ((foldr_insertAsc_perm c rest).mem_iff.mp hj))
      (foldr_insertAsc_pairwise c rest hrest)

theorem sortedGroupOrder_pairwise (c : List ℕ) :
    (sortedGroupOrder c).Pairwise (fun i j => ltLex c j i) := by
  rw [sortedGroupOrder, List.pairwise_reverse]
  exact foldr_insertAsc_pairwise c _ (List.pairwise_lt_range _)

/-! ### `bincount` and the per-label counts -/

theorem bincount_getD_of_mem (xs : List ℕ) (d : ℕ) (h : d ∈ xs) :
    (bincount xs).getD d 0 = xs.count d := by
  have hne : xs ≠ [] := by rintro rfl; exact List.not_mem_nil d h
  have hle : d < xs.foldr max 0 + 1 := Nat.lt_succ_of_le (le_foldr_max d 0 xs h)
  unfold bincount
  match xs, hne with
  | x :: t, _ => exact getD_map_range _ _ _ _ hle

theorem countsFor_ne_zero_of_mem (y dense : List ℕ) (label d : ℕ)
    (h : d ∈ tmpGroups y dense label) : (countsFor y dense label).getD d 0 ≠ 0 := by
  unfold countsFor
  rw [bincount_getD_of_mem _ _ h]
  have := List.one_le_count_iff.mpr h
  omega

theorem mem_tmpGroups_of_sample (y dense : List ℕ) (i : ℕ)
    (hy : i < y.length) (hd : i < dense.length) :
    dense.getD i 0 ∈ tmpGroups y dense (y.getD i 0) := by
  have hlen : i < (y.zip dense).length := by
    rw [List.length_zip]
    omega
  have hget : (y.zip dense)[i] = (y[i], dense[i]) := List.getElem_zip
  have hmem : (y.getD i 0, dense.getD i 0) ∈ y.zip dense := by
    have hm := List.getElem_mem hlen
    rw [hget] at hm
    rwa [List.getD_eq_getElem y 0 hy, List.getD_eq_getElem dense 0 hd]
  exact List.mem_filterMap.mpr ⟨(y.getD i 0, dense.getD i 0), hmem, by simp⟩

/-! ### `processLabel` -/

theorem processLabel_fst_eq (k : ℕ) (c w : Bool) (y dense : List ℕ)
    (fg : List (List ℕ)) (label : ℕ) :
    (processLabel k c w y dense fg label).1 =
      (List.foldl (placeGroup c w (countsFor y dense label))
        ⟨List.replicate k 0, List.replicate k [], fg⟩
        (sortedGroupOrder (countsFor y dense label))).groupsInFold := rfl

theorem processLabel_snd_eq (k : ℕ) (c w : Bool) (y dense : List ℕ)
    (fg : List (List ℕ)) (label : ℕ) :
    (processLabel k c w y dense fg label).2 =
      (List.foldl (placeGroup c w (countsFor y dense label))
        ⟨List.replicate k 0, List.replicate k [], fg⟩
        (sortedGroupOrder (countsFor y dense label))).foldGroups := rfl

theorem initState_good (k : ℕ) (fg : List (List ℕ)) (hfg : fg.length = k) :
    GoodState k (⟨List.replicate k 0, List.replicate k [], fg⟩ : PlaceState) :=
  ⟨List.length_replicate _ _, List.length_replicate _ _, hfg⟩

theorem processLabel_gif_len (k : ℕ) (c w : Bool) (y dense : List ℕ)
    (fg : List (List ℕ)) (label : ℕ) (hfg : fg.length = k) :
    (processLabel k c w y dense fg label).1.length = k := by
  rw [processLabel_fst_eq]
  exact (foldl_place_good c w _ k _ _ (initState_good k fg hfg)).2.1

theorem processLabel_fg_len (k : ℕ) (c w : Bool) (y dense : List ℕ)
    (fg : List (List ℕ)) (label : ℕ) (hfg : fg.length = k) :
    (processLabel k c w y dense fg label).2.length = k := by
  rw [processLabel_snd_eq]
  exact (foldl_place_good c w _ k _ _ (initState_good k fg hfg)).2.2

theorem processLabel_gif_exu (k : ℕ) (c w : Bool) (y dense : List ℕ)
    (fg : List (List ℕ)) (label : ℕ) (hk : 0 < k) (hfg : fg.length = k) (d : ℕ)
    (hd : (countsFor y dense label).getD d 0 ≠ 0) :
    ∃! f, f < k ∧ d ∈ (processLabel k c w y dense fg label).1.getD f [] := by
  simp only [processLabel_fst_eq]
  exact foldl_place_gif_exu c w _ k hk d hd _ _ (initState_good k fg hfg)
    (sortedGroupOrder_nodup _)
    ((mem_sortedGroupOrder _ _).mpr (getD_lt_length _ _ _ hd))
    (fun f => by rw [getD_replicate_nil]; exact List.not_mem_nil d)

theorem processLabel_gif_zero (k : ℕ) (c w : Bool) (y dense : List ℕ)
    (fg : List (List ℕ)) (label : ℕ) (hk : 0 < k) (hfg : fg.length = k) (d : ℕ)
    (hd : (countsFor y dense label).getD d 0 = 0) :
    ∀ f, d ∉ (processLabel k c w y dense fg label).1.getD f [] := by
  intro f hmem
  rw [processLabel_fst_eq] at hmem
  rcases foldl_place_gif_new c w _ k hk d f _ _ (initState_good k fg hfg) hmem with
    hst | ⟨-, hc⟩
  · rw [getD_replicate_nil] at hst
    exact List.not_mem_nil d hst
  · exact hc hd

theorem processLabel_gif_sub_fg (k : ℕ) (c w : Bool) (y dense : List ℕ)
    (fg : List (List ℕ)) (label : ℕ) (hk : 0 < k) (hfg : fg.length = k) :
    ∀ x f, x ∈ (processLabel k c w y dense fg label).1.getD f [] →
      x ∈ (processLabel k c w y dense fg label).2.getD f [] := by
  intro x f hx
  rw [processLabel_fst_eq] at hx
  rw [processLabel_snd_eq]
  refine foldl_place_gif_sub_fg c w _ k hk _ _ (initState_good k fg hfg) ?_ x f hx
  intro x' f' hx'
  rw [getD_replicate_nil] at hx'
  exact absurd hx' (List.not_mem_nil x')

theorem processLabel_fg_mono (k : ℕ) (c w : Bool) (y dense : List ℕ)
    (fg : List (List ℕ)) (label : ℕ) (hk : 0 < k) (hfg : fg.length = k)
    (x f : ℕ) (hx : x ∈ fg.getD f []) :
    x ∈ (processLabel k c w y dense fg label).2.getD f [] := by
  rw [processLabel_snd_eq]
  exact foldl_place_fg_mono c w _ k hk x f _ _ (initState_good k fg hfg) hx

theorem processLabel_atMostOne (k : ℕ) (w : Bool) (y dense : List ℕ)
    (fg : List (List ℕ)) (label : ℕ) (hk : 0 < k) (hfg : fg.length = k)
    (hone : AtMostOne fg) :
    AtMostOne (processLabel k true w y dense fg label).2 := by
  rw [processLabel_snd_eq]
  exact foldl_place_atMostOne w _ k hk _ _ (initState_good k fg hfg) hone

/-! ### The label loop (`buildLabelToFold`) -/

theorem buildLabelToFold_map_fst (k : ℕ) (c w : Bool) (y dense : List ℕ) :
    ∀ (ls : List ℕ) (fg : List (List ℕ)),
      (buildLabelToFold k c w y dense fg ls).1.map Prod.fst = ls
  | [], _ => rfl
  | l :: ls, fg => by
    rw [buildLabelToFold]
    simp only [List.map_cons]
    rw [buildLabelToFold_map_fst k c w y dense ls _]

theorem buildLabelToFold_fg_len (k : ℕ) (c w : Bool) (y dense : List ℕ) :
    ∀ (ls : List ℕ) (fg : List (List ℕ)), fg.length = k →
      (buildLabelToFold k c w y dense fg ls).2.length = k
  | [], _, hfg => hfg
  | l :: ls, fg, hfg => by
    rw [buildLabelToFold]
    exact buildLabelToFold_fg_len k c w y dense ls _
      (processLabel_fg_len k c w y dense fg l hfg)

theorem buildLabelToFold_entries (k : ℕ) (c w : Bool) (y dense : List ℕ)
    (hk : 0 < k) :
    ∀ (ls : List ℕ) (fg : List (List ℕ)), fg.length = k →
      ∀ p ∈ (buildLabelToFold k c w y dense fg ls).1,
        (∀ d, (countsFor y dense p.1).getD d 0 ≠ 0 →
          ∃! f, f < k ∧ d ∈ p.2.getD f []) ∧
        (∀ d f, (countsFor y dense p.1).getD d 0 = 0 → d ∉ p.2.getD f [])
  | [], _, _, p, hp => absurd hp (List.not_mem_nil p)
  | l :: ls, fg, hfg, p, hp => by
    rw [buildLabelToFold] at hp
    rcases List.mem_cons.mp hp with rfl | hp'
    · exact ⟨fun d hd => processLabel_gif_exu k c w y dense fg l hk hfg d hd,
        fun d f hd => processLabel_gif_zero k c w y dense fg l hk hfg d hd f⟩
    · exact buildLabelToFold_entries k c w y dense hk ls _
        (processLabel_fg_len k c w y dense fg l hfg) p hp'

theorem buildLabelToFold_fg_mono (k : ℕ) (c w : Bool) (y dense : List ℕ)
    (hk : 0 < k) :
    ∀ (ls : List ℕ) (fg : List (List ℕ)), fg.length = k →
      ∀ x f, x ∈ fg.getD f [] →
        x ∈ (buildLabelToFold k c w y dense fg ls).2.getD f []
  | [], _, _, _, _, hx => hx
  | l :: ls, fg, hfg, x, f, hx => by
    rw [buildLabelToFold]
    exact buildLabelToFold_fg_mono k c w y dense hk ls _
      (processLabel_fg_len k c w y dense fg l hfg) x f
      (processLabel_fg_mono k c w y dense fg l hk hfg x f hx)

theorem buildLabelToFold_gif_sub (k : ℕ) (c w : Bool) (y dense : List ℕ)
    (hk : 0 < k) :
    ∀ (ls : List ℕ) (fg : List (List ℕ)), fg.length = k →
      ∀ p ∈ (buildLabelToFold k c w y dense fg ls).1,
        ∀ x f, x ∈ p.2.getD f [] →
          x ∈ (buildLabelToFold k c w y dense fg ls).2.getD f []
  | [], _, _, p, hp, _, _, _ => absurd hp (List.not_mem_nil p)
  | l :: ls, fg, hfg, p, hp, x, f, hx => by
    rw [buildLabelToFold] at hp ⊢
    rcases List.mem_cons.mp hp with rfl | hp'
    · exact buildLabelToFold_fg_mono k c w y dense hk ls _
        (processLabel_fg_len k c w y dense fg l hfg) x f
        (processLabel_gif_sub_fg k c w y dense fg l hk hfg x f hx)
    · exact buildLabelToFold_gif_sub k c w y dense hk ls _
        (processLabel_fg_len k c w y dense fg l hfg) p hp' x f hx

theorem buildLabelToFold_atMostOne (k : ℕ) (w : Bool) (y dense : List ℕ)
    (hk : 0 < k) :
    ∀ (ls : List ℕ) (fg : List (List ℕ)), fg.length = k → AtMostOne fg →
      AtMostOne (buildLabelToFold k true w y dense fg ls).2
  | [], _, _, hone => hone
  | l :: ls, fg, hfg, hone => by
    rw [buildLabelToFold]
    exact buildLabelToFold_atMostOne k w y dense hk ls _
      (processLabel_fg_len k true w y dense fg l hfg)
      (processLabel_atMostOne k w y dense fg l hk hfg hone)

/-! ### The yield stage -/

theorem iterTestIndicesFolds_length (k : ℕ) (c w : Bool) (y gs : List ℕ) :
    (iterTestIndicesFolds k c w y gs).length = k := by
  simp [iterTestIndicesFolds]

theorem iterTestIndicesFolds_getD (k : ℕ) (c w : Bool) (y gs : List ℕ) (f : ℕ)
    (hf : f < k) :
    (iterTestIndicesFolds k c w y gs).getD f [] =
      ((buildLabelToFold k c w y (denseCodes gs) (List.replicate k [])
          (uniqueSorted y)).1.map
        (fun p => (List.range y.length).filter (fun i =>
          y.getD i 0 == p.1 &&
            (p.2.getD f []).contains ((denseCodes gs).getD i 0)))).flatten := by
  have he : iterTestIndicesFolds k c w y gs =
      (List.range k).map (fun f =>
        ((buildLabelToFold k c w y (denseCodes gs) (List.replicate k [])
            (uniqueSorted y)).1.map
          (fun p => (List.range y.length).filter (fun i =>
            y.getD i 0 == p.1 &&
              (p.2.getD f []).contains ((denseCodes gs).getD i 0)))).flatten) := rfl
  rw [he, getD_map_range _ _ _ _ hf]

theorem mem_fold_iff (k : ℕ) (c w : Bool) (y gs : List ℕ) (i f : ℕ) :
    (i ∈ (iterTestIndicesFolds k c w y gs).getD f [] ↔
      f < k ∧ ∃ p ∈ (buildLabelToFold k c w y (denseCodes gs)
          (List.replicate k []) (uniqueSorted y)).1,
        i < y.length ∧ y.getD i 0 = p.1 ∧
          (denseCodes gs).getD i 0 ∈ p.2.getD f []) := by
  constructor
  · intro h
    have hf : f < k := by
      by_contra hge
      rw [List.getD_eq_default _ _
        (by rw [iterTestIndicesFolds_length]; omega)] at h
      exact List.not_mem_nil i h
    rw [iterTestIndicesFolds_getD k c w y gs f hf] at h
    rcases List.mem_flatten.mp h with ⟨seg, hseg, hiseg⟩
    rcases List.mem_map.mp hseg with ⟨p, hp, rfl⟩
    rcases List.mem_filter.mp hiseg with ⟨hir, hcond⟩
    rw [Bool.and_eq_true] at hcond
    refine ⟨hf, p, hp, List.mem_range.mp hir, ?_, ?_⟩
    · exact (beq_iff_eq (a := y.getD i 0) (b := p.1)).mp hcond.1
    · exact (List.elem_iff (a := (denseCodes gs).getD i 0)).mp hcond.2
  · rintro ⟨hf, p, hp, hi, hy, hd⟩
    rw [iterTestIndicesFolds_getD k c w y gs f hf]
    refine List.mem_flatten.mpr ⟨_, List.mem_map.mpr ⟨p, hp, rfl⟩, ?_⟩
    refine List.mem_filter.mpr ⟨List.mem_range.mpr hi, ?_⟩
    rw [Bool.and_eq_true]
    exact ⟨(beq_iff_eq (a := y.getD i 0) (b := p.1)).mpr hy,
      (List.elem_iff (a := (denseCodes gs).getD i 0)).mpr hd⟩

theorem mem_fold_lt (k : ℕ) (c w : Bool) (y gs : List ℕ) (i f : ℕ)
    (h : i ∈ (iterTestIndicesFolds k c w y gs).getD f []) : i < y.length := by
  rcases (mem_fold_iff k c w y gs i f).mp h with ⟨-, p, -, hi, -⟩
  exact hi

/-- Core partition fact: a sample index `i` of a well-formed input lies in
exactly one of the `k` test-index lists. -/
theorem testFolds_exu (k : ℕ) (c w : Bool) (y gs : List ℕ)
    (hlen : y.length = gs.length) (hk : 0 < k) (i : ℕ) (hi : i < y.length) :
    ∃! f, f < k ∧ i ∈ (iterTestIndicesFolds k c w y gs).getD f [] := by
  have hdlen : i < (denseCodes gs).length := by
    rw [denseCodes, List.length_map]
    omega
  have hyi : y.getD i 0 ∈ uniqueSorted y := by
    rw [mem_uniqueSorted, List.getD_eq_getElem y 0 hi]
    exact List.getElem_mem hi
  have hd : (denseCodes gs).getD i 0 ∈ tmpGroups y (denseCodes gs) (y.getD i 0) :=
    mem_tmpGroups_of_sample y (denseCodes gs) i hi hdlen
  have hcnt := countsFor_ne_zero_of_mem y (denseCodes gs) _ _ hd
  have hmapfst := buildLabelToFold_map_fst k c w y (denseCodes gs)
    (uniqueSorted y) (List.replicate k [])
  have hnodup : ((buildLabelToFold k c w y (denseCodes gs)
      (List.replicate k []) (uniqueSorted y)).1.map Prod.fst).Nodup := by
    rw [hmapfst]
    exact uniqueSorted_nodup y
  have hment : y.getD i 0 ∈ (buildLabelToFold k c w y (denseCodes gs)
      (List.replicate k []) (uniqueSorted y)).1.map Prod.fst := by
    rw [hmapfst]
    exact hyi
  rcases List.mem_map.mp hment with ⟨p, hp, hfst⟩
  have hent := buildLabelToFold_entries k c w y (denseCodes gs) hk
    (uniqueSorted y) (List.replicate k []) (List.length_replicate _ _) p hp
  have hcnt' : (countsFor y (denseCodes gs) p.1).getD ((denseCodes gs).getD i 0) 0 ≠ 0 := by
    rw [hfst]
    exact hcnt
  rcases hent.1 ((denseCodes gs).getD i 0) hcnt' with ⟨f0, ⟨hf0k, hf0mem⟩, huniq⟩
  refine ⟨f0, ⟨hf0k, ?_⟩, ?_⟩
  · exact (mem_fold_iff k c w y gs i f0).mpr ⟨hf0k, p, hp, hi, hfst.symm, hf0mem⟩
  · rintro f ⟨hfk, hfmem⟩
    rcases (mem_fold_iff k c w y gs i f).mp hfmem with ⟨-, q, hq, -, hyq, hdq⟩
    have hqp : q = p := List.inj_on_of_nodup_map hnodup hq hp (by rw [← hyq, hfst])
    subst hqp
    exact huniq f ⟨hfk, hdq⟩

theorem getD_map_lt {α β : Type} (f : α → β) (l : List α) (i : ℕ) (d : α)
    (d' : β) (h : i < l.length) : (l.map f).getD i d' = f (l.getD i d) := by
  rw [List.getD_eq_getElem _ d' (by simpa using h), List.getElem_map,
    List.getD_eq_getElem _ d h]

theorem replicate_atMostOne (k : ℕ) : AtMostOne (List.replicate k []) := by
  intro x f1 f2 h1 h2
  rw [getD_replicate_nil] at h1
  exact absurd h1 (List.not_mem_nil x)

/-- With `constrain_groups`, two samples of the same raw group can only occur
in the same fold's test list. -/
theorem testFolds_sameGroup (k : ℕ) (w : Bool) (y gs : List ℕ)
    (hlen : y.length = gs.length) (hk : 0 < k) (i1 i2 f1 f2 : ℕ)
    (hi1 : i1 < y.length) (hi2 : i2 < y.length)
    (hsame : gs.getD i1 0 = gs.getD i2 0)
    (h1 : i1 ∈ (iterTestIndicesFolds k true w y gs).getD f1 [])
    (h2 : i2 ∈ (iterTestIndicesFolds k true w y gs).getD f2 []) : f1 = f2 := by
  have hd : (denseCodes gs).getD i1 0 = (denseCodes gs).getD i2 0 := by
    rw [denseCodes, getD_map_lt _ _ _ 0 _ (by omega),
      getD_map_lt _ _ _ 0 _ (by omega), hsame]
  rcases (mem_fold_iff k true w y gs i1 f1).mp h1 with ⟨-, p1, hp1, -, -, hd1⟩
  rcases (mem_fold_iff k true w y gs i2 f2).mp h2 with ⟨-, p2, hp2, -, -, hd2⟩
  have hrep : (List.replicate k ([] : List ℕ)).length = k := List.length_replicate _ _
  have hfg1 := buildLabelToFold_gif_sub k true w y (denseCodes gs) hk
    (uniqueSorted y) (List.replicate k []) hrep p1 hp1 _ f1 hd1
  have hfg2 := buildLabelToFold_gif_sub k true w y (denseCodes gs) hk
    (uniqueSorted y) (List.replicate k []) hrep p2 hp2 _ f2 hd2
  rw [hd] at hfg1
  exact buildLabelToFold_atMostOne k w y (denseCodes gs) hk
    (uniqueSorted y) (List.replicate k []) hrep (replicate_atMostOne k)
    ((denseCodes gs).getD i2 0) f1 f2 hfg1 hfg2

/-- Two samples with the same raw group and the same label can only occur in
the same fold's test list (any configuration). -/
theorem testFolds_samePair (k : ℕ) (c w : Bool) (y gs : List ℕ)
    (hlen : y.length = gs.length) (hk : 0 < k) (i1 i2 f1 f2 : ℕ)
    (hi1 : i1 < y.length) (hi2 : i2 < y.length)
    (hsameg : gs.getD i1 0 = gs.getD i2 0)
    (hsamey : y.getD i1 0 = y.getD i2 0)
    (h1 : i1 ∈ (iterTestIndicesFolds k c w y gs).getD f1 [])
    (h2 : i2 ∈ (iterTestIndicesFolds k c w y gs).getD f2 []) : f1 = f2 := by
  have hd : (denseCodes gs).getD i1 0 = (denseCodes gs).getD i2 0 := by
    rw [denseCodes, getD_map_lt _ _ _ 0 _ (by omega),
      getD_map_lt _ _ _ 0 _ (by omega), hsameg]
  have hdlen : i1 < (denseCodes gs).length := by
    rw [denseCodes, List.length_map]
    omega
  rcases (mem_fold_iff k c w y gs i1 f1).mp h1 with ⟨hf1, p1, hp1, -, hy1, hd1⟩
  rcases (mem_fold_iff k c w y gs i2 f2).mp h2 with ⟨hf2, p2, hp2, -, hy2, hd2⟩
  have hmapfst := buildLabelToFold_map_fst k c w y (denseCodes gs)
    (uniqueSorted y) (List.replicate k [])
  have hnodup : ((buildLabelToFold k c w y (denseCodes gs)
      (List.replicate k []) (uniqueSorted y)).1.map Prod.fst).Nodup := by
    rw [hmapfst]
    exact uniqueSorted_nodup y
  have hpp : p2 = p1 := List.inj_on_of_nodup_map hnodup hp2 hp1
    (by rw [← hy1, ← hy2, hsamey])
  subst hpp
  have hcnt : (countsFor y (denseCodes gs) p2.1).getD
      ((denseCodes gs).getD i1 0) 0 ≠ 0 := by
    rw [← hy1]
    exact countsFor_ne_zero_of_mem y (denseCodes gs) _ _
      (mem_tmpGroups_of_sample y (denseCodes gs) i1 hi1 hdlen)
  rcases buildLabelToFold_entries k c w y (denseCodes gs) hk
      (uniqueSorted y) (List.replicate k []) (List.length_replicate _ _) p2 hp2
      |>.1 ((denseCodes gs).getD i1 0) hcnt with ⟨f0, -, huniq⟩
  rw [huniq f1 ⟨hf1, hd1⟩, huniq f2 ⟨hf2, by rw [hd]; exact hd2⟩]

/-! ### The fold-iteration driver (`experiment.run`) -/

theorem zipWith_add_getD (q v : List ℚ) (j : ℕ) (hq : j < q.length)
    (hv : j < v.length) :
    (List.zipWith (· + ·) q v).getD j 0 = q.getD j 0 + v.getD j 0 := by
  rw [List.getD_eq_getElem _ _ (by rw [List.length_zipWith]; omega),
    List.getElem_zipWith, List.getD_eq_getElem _ _ hq, List.getD_eq_getElem _ _ hv]

theorem runFoldLoop_pred_some {α : Type} [Inhabited α]
    (fit : List (α × ℚ) → α → ℚ) (fimp : List (α × ℚ) → List ℚ)
    (train : List α) (target : List ℚ) (t : List α) :
    ∀ (folds : List (List ℕ × List ℕ)) (st : RunResult α) (p : List ℚ),
      st.prediction = some p →
      (List.foldl (runFoldStep fit fimp train target (some t)) st folds).prediction =
        some (List.foldl (fun q fo =>
          List.zipWith (· + ·) q (t.map (fittedModel fit train target fo.1))) p folds)
  | [], _, _, hp => hp
  | fo :: rest, st, p, hp => by
    rw [List.foldl_cons, List.foldl_cons]
    refine runFoldLoop_pred_some fit fimp train target t rest _ _ ?_
    simp only [runFoldStep, hp, fittedModel]

theorem foldl_zipAdd_len {α : Type} [Inhabited α]
    (fit : List (α × ℚ) → α → ℚ) (train : List α) (target : List ℚ)
    (t : List α) :
    ∀ (folds : List (List ℕ × List ℕ)) (p : List ℚ), p.length = t.length →
      (List.foldl (fun q fo =>
          List.zipWith (· + ·) q (t.map (fittedModel fit train target fo.1)))
        p folds).length = t.length
  | [], _, hp => hp
  | fo :: rest, p, hp => by
    rw [List.foldl_cons]
    exact foldl_zipAdd_len fit train target t rest _
      (by rw [List.length_zipWith, List.length_map, hp]; omega)

theorem foldl_zipAdd_getD {α : Type} [Inhabited α]
    (fit : List (α × ℚ) → α → ℚ) (train : List α) (target : List ℚ)
    (t : List α) (j : ℕ) (hj : j < t.length) :
    ∀ (folds : List (List ℕ × List ℕ)) (p : List ℚ), p.length = t.length →
      (List.foldl (fun q fo =>
          List.zipWith (· + ·) q (t.map (fittedModel fit train target fo.1)))
        p folds).getD j 0 =
        p.getD j 0 + (folds.map (fun fo =>
          fittedModel fit train target fo.1 (t.getD j default))).sum
  | [], p, _ => by simp
  | fo :: rest, p, hp => by
    rw [List.foldl_cons]
    have hzlen : (List.zipWith (· + ·) p
        (t.map (fittedModel fit train target fo.1))).length = t.length := by
      rw [List.length_zipWith, List.length_map, hp]
      omega
    rw [foldl_zipAdd_getD fit train target t j hj rest _ hzlen,
      zipWith_add_getD _ _ j (by omega) (by rw [List.length_map]; omega),
      getD_map_lt _ _ _ default _ hj]
    simp only [List.map_cons, List.sum_cons]
    ring

theorem runFoldLoop_none {α : Type} [Inhabited α]
    (fit : List (α × ℚ) → α → ℚ) (fimp : List (α × ℚ) → List ℚ)
    (train : List α) (target : List ℚ) :
    ∀ (folds : List (List ℕ × List ℕ)) (st : RunResult α),
      (List.foldl (runFoldStep fit fimp train target none) st folds).prediction =
        st.prediction ∧
      (List.foldl (runFoldStep fit fimp train target none) st folds).testPredictCalls =
        st.testPredictCalls
  | [], _ => ⟨rfl, rfl⟩
  | fo :: rest, st => by
    rw [List.foldl_cons]
    obtain ⟨ih1, ih2⟩ := runFoldLoop_none fit fimp train target rest
      (runFoldStep fit fimp train target none st fo)
    refine ⟨?_, ?_⟩
    · rw [ih1]
      rcases st with ⟨o, pr, fi, ca⟩
      cases pr <;> rfl
    · rw [ih2]
      rfl

/-! ### The claims -/

/-- Claim C1: on valid input (equal-length labels and groups, `2 ≤ n_splits`
as the constructor enforces, `n_splits ≤` number of distinct groups), the
splitter yields `k` test index lists forming a partition of `0..n-1`: every
sample index lies in exactly one fold's test list, and test lists only hold
sample indices. -/
theorem claim_C1_partition (k : ℕ) (c w : Bool) (y gs : List ℕ)
    (hlen : y.length = gs.length) (hk : 2 ≤ k)
    (hkg : k ≤ (uniqueSorted gs).length) :
    (iterTestIndicesFolds k c w y gs).length = k ∧
    (∀ i, i < y.length →
      ∃! f, f < k ∧ i ∈ (iterTestIndicesFolds k c w y gs).getD f []) ∧
    (∀ f i, i ∈ (iterTestIndicesFolds k c w y gs).getD f [] → i < y.length) :=
  ⟨iterTestIndicesFolds_length k c w y gs,
    fun i hi => testFolds_exu k c w y gs hlen (by omega) i hi,
    fun f i h => mem_fold_lt k c w y gs i f h⟩

theorem claim_C1_partition_witness :
    ([1,1,1,1,1,2,2,2,2] : List ℕ).length = ([3,0,3,0,3,3,2,0,1] : List ℕ).length ∧
    2 ≤ 2 ∧ 2 ≤ (uniqueSorted [3,0,3,0,3,3,2,0,1]).length ∧
    ((iterTestIndicesFolds 2 true true [1,1,1,1,1,2,2,2,2] [3,0,3,0,3,3,2,0,1]).length = 2 ∧
    (∀ i, i < ([1,1,1,1,1,2,2,2,2] : List ℕ).length →
      ∃! f, f < 2 ∧ i ∈ (iterTestIndicesFolds 2 true true [1,1,1,1,1,2,2,2,2]
        [3,0,3,0,3,3,2,0,1]).getD f []) ∧
    (∀ f i, i ∈ (iterTestIndicesFolds 2 true true [1,1,1,1,1,2,2,2,2]
      [3,0,3,0,3,3,2,0,1]).getD f [] → i < ([1,1,1,1,1,2,2,2,2] : List ℕ).length)) :=
  ⟨rfl, by omega, by decide,
    claim_C1_partition 2 true true _ _ rfl (by omega) (by decide)⟩

/-- Claim C2: with `constrain_groups=true`, every sample lies in exactly one
fold's test list, and two samples sharing a raw group id always land in the
same fold — so all samples of a group appear in exactly one fold's test set. -/
theorem claim_C2_group_exclusivity (k : ℕ) (w : Bool) (y gs : List ℕ)
    (hlen : y.length = gs.length) (hk : 2 ≤ k)
    (hkg : k ≤ (uniqueSorted gs).length) :
    (∀ i, i < y.length →
      ∃! f, f < k ∧ i ∈ (iterTestIndicesFolds k true w y gs).getD f []) ∧
    (∀ i1 i2 f1 f2, i1 < y.length → i2 < y.length →
      gs.getD i1 0 = gs.getD i2 0 →
      i1 ∈ (iterTestIndicesFolds k true w y gs).getD f1 [] →
      i2 ∈ (iterTestIndicesFolds k true w y gs).getD f2 [] → f1 = f2) :=
  ⟨fun i hi => testFolds_exu k true w y gs hlen (by omega) i hi,
    fun i1 i2 f1 f2 hi1 hi2 hs h1 h2 =>
      testFolds_sameGroup k w y gs hlen (by omega) i1 i2 f1 f2 hi1 hi2 hs h1 h2⟩

theorem claim_C2_group_exclusivity_witness :
    ([1,1,1,1,1,2,2,2,2] : List ℕ).length = ([3,0,3,0,3,3,2,0,1] : List ℕ).length ∧
    2 ≤ 2 ∧ 2 ≤ (uniqueSorted [3,0,3,0,3,3,2,0,1]).length ∧
    ((∀ i, i < ([1,1,1,1,1,2,2,2,2] : List ℕ).length →
      ∃! f, f < 2 ∧ i ∈ (iterTestIndicesFolds 2 true true [1,1,1,1,1,2,2,2,2]
        [3,0,3,0,3,3,2,0,1]).getD f []) ∧
    (∀ i1 i2 f1 f2, i1 < ([1,1,1,1,1,2,2,2,2] : List ℕ).length →
      i2 < ([1,1,1,1,1,2,2,2,2] : List ℕ).length →
      ([3,0,3,0,3,3,2,0,1] : List ℕ).getD i1 0 = ([3,0,3,0,3,3,2,0,1] : List ℕ).getD i2 0 →
      i1 ∈ (iterTestIndicesFolds 2 true true [1,1,1,1,1,2,2,2,2]
        [3,0,3,0,3,3,2,0,1]).getD f1 [] →
      i2 ∈ (iterTestIndicesFolds 2 true true [1,1,1,1,1,2,2,2,2]
        [3,0,3,0,3,3,2,0,1]).getD f2 [] → f1 = f2)) :=
  ⟨rfl, by omega, by decide,
    claim_C2_group_exclusivity 2 true _ _ rfl (by omega) (by decide)⟩

/-- Claim C3: one step of the greedy placement: a nonzero-count group is
placed in the fold of currently smallest accumulated weight (first argmin),
except that with `constrain_groups=true` an already-placed group is forced
into the fold that holds it; either way the chosen fold's accumulator grows
by the group's sample count (`weighted=true`) or 1 (`weighted=false`). -/
theorem claim_C3_placement_rule (k : ℕ) (c w : Bool) (counts : List ℕ)
    (st : PlaceState) (g : ℕ) (hgood : GoodState k st) (hk : 0 < k)
    (hw : counts.getD g 0 ≠ 0)
    (hone : c = true → ∀ f1 f2, g ∈ st.foldGroups.getD f1 [] →
      g ∈ st.foldGroups.getD f2 [] → f1 = f2) :
    ∃ chosen, chosen < k ∧
      placeGroup c w counts st g =
        ⟨st.nSamplesPerFold.set chosen
            (st.nSamplesPerFold.getD chosen 0 + (if w then counts.getD g 0 else 1)),
          st.groupsInFold.set chosen (st.groupsInFold.getD chosen [] ++ [g]),
          st.foldGroups.set chosen (st.foldGroups.getD chosen [] ++ [g])⟩ ∧
      ((c = true ∧ g ∈ st.foldGroups.getD chosen []) ∨
        ((c = false ∨ ∀ f, g ∉ st.foldGroups.getD f []) ∧
          IsFirstMinIdx st.nSamplesPerFold chosen)) := by
  refine ⟨chosenFold c st g, chosenFold_lt c st g k hk hgood.1 hgood.2.2,
    placeGroup_eq c w counts st g hw, ?_⟩
  have hne : st.nSamplesPerFold ≠ [] := by
    have : 0 < st.nSamplesPerFold.length := by rw [hgood.1]; exact hk
    exact List.length_pos.mp this
  cases c with
  | false =>
    have hcf : chosenFold false st g = npArgmin st.nSamplesPerFold := by
      simp [chosenFold]
    rw [hcf]
    exact Or.inr ⟨Or.inl rfl, npArgmin_spec _ hne⟩
  | true =>
    by_cases hex : ∃ f, g ∈ st.foldGroups.getD f []
    · obtain ⟨f0, hf0⟩ := hex
      have hf0lt : f0 < st.foldGroups.length :=
        getD_lt_length _ _ _ (fun he => by
          rw [he] at hf0
          exact absurd hf0 (List.not_mem_nil g))
      have hcf : chosenFold true st g = f0 := by
        have := lastFoldAux_of_unique g st.foldGroups 0
          (npArgmin st.nSamplesPerFold) f0 hf0lt hf0
          (fun q _ hgq => hone rfl q f0 hgq hf0)
        simp [chosenFold, lastFold, this]
      rw [hcf]
      exact Or.inl ⟨rfl, hf0⟩
    · push_neg at hex
      have hcf : chosenFold true st g = npArgmin st.nSamplesPerFold := by
        have := lastFoldAux_of_none g st.foldGroups 0
          (npArgmin st.nSamplesPerFold) (fun q _ => hex q)
        simp [chosenFold, lastFold, this]
      rw [hcf]
      exact Or.inr ⟨Or.inr hex, npArgmin_spec _ hne⟩

theorem claim_C3_placement_rule_witness :
    GoodState 2 ⟨[5, 3], [[], []], [[], []]⟩ ∧ 0 < 2 ∧
    ([2] : List ℕ).getD 0 0 ≠ 0 ∧
    (∃ chosen, chosen < 2 ∧
      placeGroup true true [2] ⟨[5, 3], [[], []], [[], []]⟩ 0 =
        ⟨([5, 3] : List ℕ).set chosen
            (([5, 3] : List ℕ).getD chosen 0 + (if true then ([2] : List ℕ).getD 0 0 else 1)),
          ([[], []] : List (List ℕ)).set chosen
            (([[], []] : List (List ℕ)).getD chosen [] ++ [0]),
          ([[], []] : List (List ℕ)).set chosen
            (([[], []] : List (List ℕ)).getD chosen [] ++ [0])⟩ ∧
      ((true = true ∧ 0 ∈ ([[], []] : List (List ℕ)).getD chosen []) ∨
        ((true = false ∨ ∀ f, 0 ∉ ([[], []] : List (List ℕ)).getD f []) ∧
          IsFirstMinIdx [5, 3] chosen))) :=
  ⟨⟨rfl, rfl, rfl⟩, by omega, by decide,
    claim_C3_placement_rule 2 true true [2] ⟨[5, 3], [[], []], [[], []]⟩ 0
      ⟨rfl, rfl, rfl⟩ (by omega) (by decide)
      (fun _ f1 f2 h1 _ => by
        have he : ([[], []] : List (List ℕ)).getD f1 [] = [] := by
          match f1 with
          | 0 => rfl
          | 1 => rfl
          | n + 2 => rfl
        rw [he] at h1
        exact absurd h1 (List.not_mem_nil 0))⟩

/-- Claim C4 (counterexample): on the tied counts `[1, 1]` the code's
processing order is `[1, 0]` (descending dense group index among ties),
while a stable descending sort with ties by ascending index gives `[0, 1]`;
the claimed tie-break is not the code's. -/
theorem claim_C4_counterexample :
    sortedGroupOrder [1, 1] = [1, 0] ∧ specStableDescOrder [1, 1] = [0, 1] ∧
      sortedGroupOrder [1, 1] ≠ specStableDescOrder [1, 1] := by
  refine ⟨?_, ?_, ?_⟩ <;> decide

/-- Claim C4 (amended): within each label, groups are ordered by descending
per-group sample count with ties broken by DESCENDING dense group index
(the reverse of NumPy's stable ascending argsort); the order ranges over
exactly the indices of the count vector. -/
theorem claim_C4_amended_order (c : List ℕ) :
    (sortedGroupOrder c).Perm (List.range c.length) ∧
    (sortedGroupOrder c).Pairwise (fun i j =>
      c.getD j 0 < c.getD i 0 ∨ (c.getD i 0 = c.getD j 0 ∧ j < i)) := by
  refine ⟨sortedGroupOrder_perm c, ?_⟩
  refine List.Pairwise.imp ?_ (sortedGroupOrder_pairwise c)
  intro i j h
  rcases h with h | ⟨he, hl⟩
  · exact Or.inl h
  · exact Or.inr ⟨he.symm, hl⟩

/-- Claim C5: whatever `constrain_groups` is — stated here for `false` as the
claim does — all samples sharing both raw group id and label land in a single
fold's test list, and every sample lies in exactly one fold. -/
theorem claim_C5_pair_exclusivity (k : ℕ) (w : Bool) (y gs : List ℕ)
    (hlen : y.length = gs.length) (hk : 2 ≤ k)
    (hkg : k ≤ (uniqueSorted gs).length) :
    (∀ i, i < y.length →
      ∃! f, f < k ∧ i ∈ (iterTestIndicesFolds k false w y gs).getD f []) ∧
    (∀ i1 i2 f1 f2, i1 < y.length → i2 < y.length →
      gs.getD i1 0 = gs.getD i2 0 → y.getD i1 0 = y.getD i2 0 →
      i1 ∈ (iterTestIndicesFolds k false w y gs).getD f1 [] →
      i2 ∈ (iterTestIndicesFolds k false w y gs).getD f2 [] → f1 = f2) :=
  ⟨fun i hi => testFolds_exu k false w y gs hlen (by omega) i hi,
    fun i1 i2 f1 f2 hi1 hi2 hsg hsy h1 h2 =>
      testFolds_samePair k false w y gs hlen (by omega) i1 i2 f1 f2 hi1 hi2
        hsg hsy h1 h2⟩

theorem claim_C5_pair_exclusivity_witness :
    ([1,1,1,1,1,2,2,2,2] : List ℕ).length = ([3,0,3,0,3,3,2,0,1] : List ℕ).length ∧
    2 ≤ 2 ∧ 2 ≤ (uniqueSorted [3,0,3,0,3,3,2,0,1]).length ∧
    ((∀ i, i < ([1,1,1,1,1,2,2,2,2] : List ℕ).length →
      ∃! f, f < 2 ∧ i ∈ (iterTestIndicesFolds 2 false true [1,1,1,1,1,2,2,2,2]
        [3,0,3,0,3,3,2,0,1]).getD f []) ∧
    (∀ i1 i2 f1 f2, i1 < ([1,1,1,1,1,2,2,2,2] : List ℕ).length →
      i2 < ([1,1,1,1,1,2,2,2,2] : List ℕ).length →
      ([3,0,3,0,3,3,2,0,1] : List ℕ).getD i1 0 = ([3,0,3,0,3,3,2,0,1] : List ℕ).getD i2 0 →
      ([1,1,1,1,1,2,2,2,2] : List ℕ).getD i1 0 = ([1,1,1,1,1,2,2,2,2] : List ℕ).getD i2 0 →
      i1 ∈ (iterTestIndicesFolds 2 false true [1,1,1,1,1,2,2,2,2]
        [3,0,3,0,3,3,2,0,1]).getD f1 [] →
      i2 ∈ (iterTestIndicesFolds 2 false true [1,1,1,1,1,2,2,2,2]
        [3,0,3,0,3,3,2,0,1]).getD f2 [] → f1 = f2)) :=
  ⟨rfl, by omega, by decide,
    claim_C5_pair_exclusivity 2 true _ _ rfl (by omega) (by decide)⟩

/-- Claim C6: under the constructor's `2 ≤ n_splits`, the test-index
computation succeeds exactly when groups are given and `n_splits` does not
exceed the number of distinct groups — the boundary `n_splits = n_groups`
succeeds; otherwise it fails (with the spec's `ConfigurationError`) before
yielding any fold. -/
theorem claim_C6_error_conditions (k : ℕ) (c w : Bool) (y : List ℕ)
    (groups : Option (List ℕ)) (hk : 2 ≤ k) :
    ((iterTestIndices k c w y groups).isOk = true ↔
      ∃ gs, groups = some gs ∧ k ≤ (uniqueSorted gs).length) := by
  match groups with
  | none => simp [iterTestIndices, Except.isOk, Except.toBool]
  | some gs =>
    rw [iterTestIndices]
    split
    next hgt =>
      simp only [Except.isOk, Except.toBool]
      constructor
      · intro h
        exact absurd h (by simp)
      · rintro ⟨gs', he, hle⟩
        rcases Option.some_inj.mp he with rfl
        omega
    next hle =>
      simp only [Except.isOk, Except.toBool]
      exact ⟨fun _ => ⟨gs, rfl, by omega⟩, fun _ => trivial⟩

theorem claim_C6_error_conditions_witness :
    2 ≤ 2 ∧
    ((iterTestIndices 2 true true [0] (some [0, 1])).isOk = true ↔
      ∃ gs, (some [0, 1] : Option (List ℕ)) = some gs ∧
        2 ≤ (uniqueSorted gs).length) :=
  ⟨by omega, claim_C6_error_conditions 2 true true [0] (some [0, 1]) (by omega)⟩

/-- Claim C7: the documented example — groups `[3,0,3,0,3,3,2,0,1]`, labels
`[1,1,1,1,1,2,2,2,2]`, `n_splits=2`, default configuration — yields fold 0
test indices `[0,2,4,5,8]` and fold 1 test indices `[1,3,6,7]`, each train
side being the exact ascending complement. -/
theorem claim_C7_documented_example :
    splitFolds 2 true true [1,1,1,1,1,2,2,2,2] (some [3,0,3,0,3,3,2,0,1]) =
      .ok [([1,3,6,7], [0,2,4,5,8]), ([0,2,4,5,8], [1,3,6,7])] := rfl

/-- Claim C8: with a held-out test set, the returned test prediction is the
elementwise sum of each fold model's raw predictions on the test rows,
divided by the number of folds — a plain mean by fold count. -/
theorem claim_C8_test_prediction_mean {α : Type} [Inhabited α]
    (fit : List (α × ℚ) → α → ℚ) (fimp : List (α × ℚ) → List ℚ)
    (train : List α) (target : List ℚ) (t : List α)
    (folds : List (List ℕ × List ℕ)) :
    ∃ P, (runExperiment fit fimp train target (some t) folds).prediction = some P ∧
      P.length = t.length ∧
      ∀ j, j < t.length → P.getD j 0 =
        (folds.map (fun fo =>
          fittedModel fit train target fo.1 (t.getD j default))).sum /
          (folds.length : ℚ) := by
  have hinit : (⟨List.replicate train.length 0,
      (some t).map (fun t => List.replicate t.length 0), [], 0⟩ :
      RunResult α).prediction = some (List.replicate t.length 0) := rfl
  have hpred := runFoldLoop_pred_some fit fimp train target t folds _ _ hinit
  have hqlen := foldl_zipAdd_len fit train target t folds
    (List.replicate t.length 0) (by simp)
  refine ⟨(List.foldl (fun q fo =>
      List.zipWith (· + ·) q (t.map (fittedModel fit train target fo.1)))
      (List.replicate t.length 0) folds).map (· / (folds.length : ℚ)),
    ?_, ?_, ?_⟩
  · show ((List.foldl (runFoldStep fit fimp train target (some t))
        ⟨List.replicate train.length 0,
          (some t).map (fun t => List.replicate t.length 0), [], 0⟩
        folds).prediction).map (fun p => p.map (· / (folds.length : ℚ))) = _
    rw [hpred]
    rfl
  · rw [List.length_map]
    exact hqlen
  · intro j hj
    have hval := foldl_zipAdd_getD fit train target t j hj folds
      (List.replicate t.length 0) (by simp)
    rw [getD_map_lt _ _ _ 0 _ (by omega), hval]
    have hz : (List.replicate t.length (0 : ℚ)).getD j 0 = 0 := by
      rw [List.getD_eq_getElem _ _ (by simpa using hj)]
      simp
    rw [hz, zero_add]

theorem claim_C8_test_prediction_mean_witness :
    ∃ P, (runExperiment (α := ℚ) (fun _ x => x) (fun _ => []) [1, 2] [3, 4]
        (some [5]) [([0], [1])]).prediction = some P ∧
      P.length = ([5] : List ℚ).length ∧
      ∀ j, j < ([5] : List ℚ).length → P.getD j 0 =
        (([([0], [1])] : List (List ℕ × List ℕ)).map (fun fo =>
          fittedModel (fun _ x => x) [1, 2] [3, 4] fo.1
            (([5] : List ℚ).getD j default))).sum / ((1 : ℕ) : ℚ) :=
  claim_C8_test_prediction_mean (fun _ x => x) (fun _ => []) [1, 2] [3, 4]
    [5] [([0], [1])]

/-- Claim C9: `Trainer.predict_proba` on a non-classifier fails with the
spec's `NotSupportedError` (the adapter's unsupported-operation error), and
the result does not depend on either underlying `predict_proba`
implementation — the wrapped model is never consulted. -/
theorem claim_C9_predict_proba_unsupported (name : String) (cat : Bool)
    (pf1 pf2 : List ℚ → List (List ℚ)) (x : List ℚ) :
    predictProba ⟨name, cat, false, pf1, pf2⟩ x =
      Except.error (name ++ " is not supported predict_proba method.") := rfl

/-- Claim C10: with no held-out test set, `run` returns `None` as the test
prediction and never evaluates a per-fold prediction on a test set. -/
theorem claim_C10_no_test_prediction {α : Type} [Inhabited α]
    (fit : List (α × ℚ) → α → ℚ) (fimp : List (α × ℚ) → List ℚ)
    (train : List α) (target : List ℚ) (folds : List (List ℕ × List ℕ)) :
    (runExperiment fit fimp train target none folds).prediction = none ∧
    (runExperiment fit fimp train target none folds).testPredictCalls = 0 := by
  obtain ⟨h1, h2⟩ := runFoldLoop_none fit fimp train target folds
    ⟨List.replicate train.length 0, (none : Option (List α)).map
      (fun t => List.replicate t.length 0), [], 0⟩
  constructor
  · show ((List.foldl (runFoldStep fit fimp train target none) _ folds).prediction).map
      (fun p => p.map (· / (folds.length : ℚ))) = none
    rw [h1]
    rfl
  · exact h2

end TbPipe
